import Mathlib

/-!
Shallow embedding of the functable library (functable.py) and proofs about
its specification.

The library has two classes:

- FunctionTable: a Mapping from string keys to callables, populated through
  a register method that derives the key from the declared name of the
  callable (stripping a fixed required prefix) unless an explicit name is
  supplied.
- FunctionTableProperty: a FunctionTable of unbound methods that, combined
  with a lazy per-instance property primitive (LazyProperty from the
  external proptools package), exposes to each instance a bound table whose
  entries are the unbound callables bound to that instance.

Python dictionaries are modelled by association lists with in-place
overwrite semantics; Python callables are modelled by a pair of a declared
name (the value of the name attribute of the function object) and a Lean
function giving the behavior.  Python string operations are modelled on
the character list underlying a String, which matches the character-based
semantics of Python string slicing and startswith.
-/

namespace Functable

/-- A Python callable as the registry sees it: the declared name (the value
of the name attribute of the function object) and its behavior. -/
structure PyFunc (α : Type) where
  name : String
  fn : α

/-- Python str.startswith, on characters. -/
def pyStartsWith (s p : String) : Bool := List.isPrefixOf p.data s.data

/-- Python slicing s[n:], on characters. -/
def pyDrop (s : String) (n : Nat) : String := String.mk (s.data.drop n)

/-- Python len for strings, in characters. -/
def pyLen (s : String) : Nat := s.data.length

/-- Python dict assignment d[k] = v: overwrite the value in place when the
key is present, else append a new binding at the end. -/
def dinsert {κ β : Type} [DecidableEq κ] (k : κ) (v : β) :
    List (κ × β) → List (κ × β)
  | [] => [(k, v)]
  | (k2, v2) :: rest =>
    if k2 = k then (k, v) :: rest else (k2, v2) :: dinsert k v rest

/-- Python dict lookup d[k], with none for a KeyError. -/
def dlookup {κ β : Type} [DecidableEq κ] (k : κ) :
    List (κ × β) → Option β
  | [] => none
  | (k2, v2) :: rest => if k2 = k then some v2 else dlookup k rest

/-- The FunctionTable class: a prefix (attribute self.prefix in the source,
renamed because prefix is a Lean keyword) and the backing dict self._table. -/
structure FunctionTable (α : Type) where
  pfx : String
  table : List (String × PyFunc α)

/-- FunctionTable.__init__: created empty with the given prefix. -/
def FunctionTable.empty {α : Type} (p : String) : FunctionTable α :=
  { pfx := p, table := [] }

/-- FunctionTable.register.  When name is omitted the key is derived from
the declared name of f: the assert models the AssertionError raised when
the declared name does not start with the prefix (none result), and the
prefix is stripped from it.  On success the table gains the binding and
the callable itself is handed back (register returns f for decorator use),
so the result is the pair of the updated table and the returned value. -/
def FunctionTable.register {α : Type} (t : FunctionTable α) (f : PyFunc α)
    (name : Option String) : Option (FunctionTable α × PyFunc α) :=
  match name with
  | some n => some ({ t with table := dinsert n f t.table }, f)
  | none =>
    if pyStartsWith f.name t.pfx then
      some ({ t with table := dinsert (pyDrop f.name (pyLen t.pfx)) f t.table }, f)
    else
      none

/-- FunctionTable.__getitem__: dict lookup, none models the KeyError. -/
def FunctionTable.getitem {α : Type} (t : FunctionTable α) (k : String) :
    Option (PyFunc α) :=
  dlookup k t.table

/-- Mapping.get inherited by FunctionTable: try self[key], and return the
default when that raises KeyError. -/
def FunctionTable.get {α : Type} (t : FunctionTable α) (k : String)
    (d : PyFunc α) : PyFunc α :=
  match t.getitem k with
  | some f => f
  | none => d

/-- Mapping.__contains__ inherited by FunctionTable: membership through
__getitem__. -/
def FunctionTable.contains {α : Type} (t : FunctionTable α) (k : String) :
    Bool :=
  (t.getitem k).isSome

/-- FunctionTable.__len__: the size of the backing dict. -/
def FunctionTable.size {α : Type} (t : FunctionTable α) : Nat :=
  t.table.length

/-- The key list of the backing dict. -/
def FunctionTable.keys {α : Type} (t : FunctionTable α) : List String :=
  t.table.map Prod.fst

/-- The key register would store f under: the explicit name when given,
else the declared name of f with the prefix stripped provided the declared
name starts with the prefix; none when the assert would fail. -/
def resolvedKey {α : Type} (p : String) (f : PyFunc α) :
    Option String → Option String
  | some n => some n
  | none =>
    if pyStartsWith f.name p then some (pyDrop f.name (pyLen p)) else none

/-- MethodType(unbound, instance, cls): partially apply the unbound
callable to the instance; the declared name is the one of the underlying
function. -/
def bindFunc {ι α : Type} (i : ι) (f : PyFunc (ι → α)) : PyFunc α :=
  { name := f.name, fn := f.fn i }

/-- The local function bind inside FunctionTableProperty.__init__: build a
fresh FunctionTable with the same prefix and register into it every entry
of the unbound table bound to the instance.  Each inner register call
passes no explicit name, so the key is re-derived from the declared name
of the bound method; none models an AssertionError escaping from bind. -/
def FunctionTableProperty.bind {ι α : Type} (self : FunctionTable (ι → α))
    (inst : ι) : Option (FunctionTable α) :=
  self.table.foldlM
    (fun bt kv => (FunctionTable.register bt (bindFunc inst kv.2) none).map Prod.fst)
    (FunctionTable.empty self.pfx)

/-- Modelled from the spec: the LazyProperty primitive consumed by
FunctionTableProperty comes from the external proptools package, which is
not part of this repository.  The spec describes it as a lazy cached
instance property: accessed through the class it returns the unbound
registry itself, and accessed through an instance it computes the bound
table on first access, caches it per instance, and returns the cached
value on later accesses.  Following the explicit state machine of the
spec, a provider state holds the unbound table of the provider (self, a
FunctionTable), the per-instance cache, and, for stating laziness, the
history of instances for which the bind computation actually ran. -/
structure PropState (ι α : Type) where
  prop : FunctionTable (ι → α)
  cache : List (ι × FunctionTable α)
  runs : List ι

/-- Modelled from the spec: construction of the provider at class
definition time, with an empty unbound table; no bind computation has run. -/
def PropState.init {ι α : Type} (p : String) : PropState ι α :=
  { prop := FunctionTable.empty p, cache := [], runs := [] }

/-- Modelled from the spec: attribute access through the owning class
returns the internal unbound registry itself. -/
def accessClass {ι α : Type} (st : PropState ι α) : FunctionTable (ι → α) :=
  st.prop

/-- Modelled from the spec: attribute access through an instance returns
the cached bound table when present, else materializes it through the bind
computation of FunctionTableProperty, caches it and records the run; none
models an AssertionError escaping from the bind computation. -/
def accessInstance {ι α : Type} [DecidableEq ι] (st : PropState ι α) (i : ι) :
    Option (FunctionTable α × PropState ι α) :=
  match dlookup i st.cache with
  | some bt => some (bt, st)
  | none =>
    match FunctionTableProperty.bind st.prop i with
    | some bt =>
      some (bt, { st with cache := dinsert i bt st.cache, runs := i :: st.runs })
    | none => none

/-- Registration through the provider (FunctionTableProperty.register,
inherited from FunctionTable) writes into the backing dict of the unbound
table of the provider; the cached bound tables are separate FunctionTable
objects, each with its own backing dict allocated inside bind. -/
def registerProp {ι α : Type} (st : PropState ι α) (f : PyFunc (ι → α))
    (name : Option String) : Option (PropState ι α) :=
  (st.prop.register f name).map fun p => { st with prop := p.1 }

/-- Registration into the materialized bound table of one instance writes
into the backing dict of that bound table only. -/
def registerBound {ι α : Type} [DecidableEq ι] (st : PropState ι α) (i : ι)
    (f : PyFunc α) (name : Option String) : Option (PropState ι α) :=
  match dlookup i st.cache with
  | some bt =>
    (bt.register f name).map fun p => { st with cache := dinsert i p.1 st.cache }
  | none => none

/-- Run a sequence of instance accesses, threading the provider state. -/
def runAccesses {ι α : Type} [DecidableEq ι] (st : PropState ι α) :
    List ι → Option (PropState ι α)
  | [] => some st
  | i :: rest =>
    match accessInstance st i with
    | some p => runAccesses p.2 rest
    | none => none

/-- Run a sequence of register calls on a FunctionTable, each given the
callable and the optional explicit name; none as soon as one fails. -/
def registerSeq {α : Type} (t : FunctionTable α) :
    List (PyFunc α × Option String) → Option (FunctionTable α)
  | [] => some t
  | q :: rest =>
    match t.register q.1 q.2 with
    | some p => registerSeq p.1 rest
    | none => none

/-- The callable of the last registration in the sequence whose resolved
key is k, when any. -/
def lastVal {α : Type} (p k : String) :
    List (PyFunc α × Option String) → Option (PyFunc α)
  | [] => none
  | q :: rest =>
    match lastVal p k rest with
    | some v => some v
    | none => if resolvedKey p q.1 q.2 = some k then some q.1 else none

/-- Invariant of reachable provider states: the record of bind runs has
no duplicate instance and matches the cache content exactly. -/
def PropInv {ι α : Type} [DecidableEq ι] (st : PropState ι α) : Prop :=
  st.runs.Nodup ∧ ∀ j, (dlookup j st.cache).isSome = true ↔ j ∈ st.runs

/-- A concrete owner class with one integer attribute x, after the test
classes of the source. -/
structure CInst where
  x : Int
deriving DecidableEq

/-- The unbound method add(self, y) returning self.x + y. -/
def addUnbound : PyFunc (CInst → Int → Int) :=
  { name := "add", fn := fun s y => s.x + y }

/-- An unbound table with the single derived-name entry add. -/
def exTable : FunctionTable (CInst → Int → Int) :=
  { pfx := "", table := [("add", addUnbound)] }

/-- A callable whose declared name, lambda style, differs from the key it
gets registered under. -/
def cexF : PyFunc (Unit → Unit) := { name := "<lambda>", fn := fun _ => () }

/-- The unbound table obtained by registering cexF under the explicit
name pow into an empty table with empty prefix. -/
def cexProvider : FunctionTable (Unit → Unit) :=
  ((FunctionTable.register (FunctionTable.empty "") cexF (some "pow")).map Prod.fst).getD
    (FunctionTable.empty "")

/-- A fresh provider state over Nat instances for concrete runs. -/
def c3Start : PropState Nat Nat :=
  { prop := FunctionTable.empty "", cache := [], runs := [] }

/-- The provider state after accessing instance 5 twice from c3Start. -/
def c3End : PropState Nat Nat :=
  { prop := FunctionTable.empty "",
    cache := [(5, FunctionTable.empty "")], runs := [5] }

/-- A provider state with one materialized bound table, for instance 0. -/
def c10St : PropState Nat Nat :=
  { prop := FunctionTable.empty "",
    cache := [(0, FunctionTable.empty "")], runs := [0] }

/-- The state c10St after registering a callable named f into the
provider. -/
def c10St2 : PropState Nat Nat :=
  { prop := { pfx := "", table := [("f", ⟨"f", fun _ => 0⟩)] },
    cache := [(0, FunctionTable.empty "")], runs := [0] }

/-- The state c10St after registering a callable named g into the bound
table of instance 0. -/
def c10St3 : PropState Nat Nat :=
  { prop := FunctionTable.empty "",
    cache := [(0, { pfx := "", table := [("g", ⟨"g", 1⟩)] })],
    runs := [0] }

section DictLemmas

variable {κ β : Type} [DecidableEq κ]

theorem dlookup_dinsert_self (k : κ) (v : β) (d : List (κ × β)) :
    dlookup k (dinsert k v d) = some v := by
  induction d with
  | nil => simp [dinsert, dlookup]
  | cons hd rest ih =>
    obtain ⟨k2, v2⟩ := hd
    by_cases hk : k2 = k
    · simp [dinsert, hk, dlookup]
    · simp [dinsert, hk, dlookup, ih]

theorem dlookup_dinsert_ne (k k2 : κ) (v : β) (d : List (κ × β))
    (h : k2 ≠ k) : dlookup k2 (dinsert k v d) = dlookup k2 d := by
  have h2 : ¬ (k = k2) := fun hh => h hh.symm
  induction d with
  | nil => simp [dinsert, dlookup, h2]
  | cons hd rest ih =>
    obtain ⟨k3, v3⟩ := hd
    by_cases hk : k3 = k
    · subst hk
      simp [dinsert, dlookup, h2]
    · simp [dinsert, dlookup, hk, ih]

theorem keys_dinsert (k : κ) (v : β) (d : List (κ × β)) :
    (dinsert k v d).map Prod.fst =
      if k ∈ d.map Prod.fst then d.map Prod.fst
      else d.map Prod.fst ++ [k] := by
  induction d with
  | nil => simp [dinsert]
  | cons hd rest ih =>
    obtain ⟨k2, v2⟩ := hd
    by_cases hk : k2 = k
    · subst hk
      simp [dinsert]
    · have hne : ¬ k = k2 := fun hh => hk hh.symm
      by_cases hmem : k ∈ rest.map Prod.fst <;>
        simp [dinsert, hk, ih, hmem, hne]

theorem keys_dinsert_nodup (k : κ) (v : β) (d : List (κ × β))
    (h : (d.map Prod.fst).Nodup) :
    ((dinsert k v d).map Prod.fst).Nodup := by
  rw [keys_dinsert]
  by_cases hmem : k ∈ d.map Prod.fst
  · simpa [hmem] using h
  · simp only [hmem, if_false]
    rw [List.nodup_append]
    refine ⟨h, List.nodup_singleton k, ?_⟩
    intro a ha hb
    simp only [List.mem_singleton] at hb
    subst hb
    exact hmem ha

theorem dinsert_of_not_mem (k : κ) (v : β) (d : List (κ × β))
    (h : k ∉ d.map Prod.fst) : dinsert k v d = d ++ [(k, v)] := by
  induction d with
  | nil => simp [dinsert]
  | cons hd rest ih =>
    obtain ⟨k2, v2⟩ := hd
    simp only [List.map_cons, List.mem_cons] at h
    push_neg at h
    obtain ⟨h1, h2⟩ := h
    have h3 : ¬ (k2 = k) := fun hh => h1 hh.symm
    simp [dinsert, h3, ih h2]

theorem length_dinsert (k : κ) (v : β) (d : List (κ × β)) :
    (dinsert k v d).length =
      if k ∈ d.map Prod.fst then d.length else d.length + 1 := by
  have h := congrArg List.length (keys_dinsert k v d)
  simp only [List.length_map] at h
  by_cases hmem : k ∈ d.map Prod.fst <;> simpa [hmem] using h

end DictLemmas

/-- The register method in equational form: it succeeds exactly when the
key resolves, storing f under the resolved key and returning f. -/
theorem register_eq {α : Type} (t : FunctionTable α) (f : PyFunc α)
    (name : Option String) :
    t.register f name = (resolvedKey t.pfx f name).map
      (fun k => ({ t with table := dinsert k f t.table }, f)) := by
  cases name with
  | some n => simp [FunctionTable.register, resolvedKey]
  | none =>
    by_cases h : pyStartsWith f.name t.pfx <;>
      simp [FunctionTable.register, resolvedKey, h]

/-- Unfolding a successful register call: the returned callable is f
itself and the table gained f under the resolved key. -/
theorem register_some {α : Type} {t t2 : FunctionTable α} {f r : PyFunc α}
    {n : Option String} (h : t.register f n = some (t2, r)) :
    r = f ∧ ∃ k, resolvedKey t.pfx f n = some k ∧
      t2 = { t with table := dinsert k f t.table } := by
  rw [register_eq] at h
  cases hk : resolvedKey t.pfx f n with
  | none => rw [hk] at h; simp at h
  | some k =>
    rw [hk] at h
    simp only [Option.map_some', Option.some.injEq, Prod.mk.injEq] at h
    exact ⟨h.2.symm, k, rfl, h.1.symm⟩

/-- Lookup commutes with mapping a function over the values of a dict. -/
theorem dlookup_map_entry {κ β γ : Type} [DecidableEq κ] (g : β → γ) (k : κ)
    (l : List (κ × β)) :
    dlookup k (l.map fun kv => (kv.1, g kv.2)) = (dlookup k l).map g := by
  induction l with
  | nil => simp [dlookup]
  | cons hd rest ih =>
    obtain ⟨k2, v2⟩ := hd
    by_cases hk : k2 = k <;> simp [dlookup, hk, ih]

/-- Key set after a dict insertion. -/
theorem keys_dinsert_toFinset {κ β : Type} [DecidableEq κ] (k : κ) (v : β)
    (d : List (κ × β)) :
    ((dinsert k v d).map Prod.fst).toFinset =
      insert k (d.map Prod.fst).toFinset := by
  rw [keys_dinsert]
  by_cases hmem : k ∈ d.map Prod.fst
  · rw [if_pos hmem, Finset.insert_eq_self.mpr (List.mem_toFinset.mpr hmem)]
  · rw [if_neg hmem, List.toFinset_append]
    simp [Finset.union_comm, Finset.insert_eq]

/-- The fold inside the bind computation, generalized over the
accumulator table: when every entry of the remaining list carries a
callable whose declared name is the prefix followed by its key, and the
keys are fresh, the fold appends the bound entries in order. -/
theorem bind_foldl_aux {ι α : Type} (i : ι)
    (l : List (String × PyFunc (ι → α))) (acc : FunctionTable α)
    (hpfx : ∀ e ∈ l, pyStartsWith e.2.name acc.pfx = true ∧
      pyDrop e.2.name (pyLen acc.pfx) = e.1)
    (hnd : (acc.table.map Prod.fst ++ l.map Prod.fst).Nodup) :
    l.foldlM (fun bt kv =>
        (FunctionTable.register bt (bindFunc i kv.2) none).map Prod.fst) acc
      = some { pfx := acc.pfx,
               table := acc.table ++ l.map fun kv => (kv.1, bindFunc i kv.2) } := by
  induction l generalizing acc with
  | nil => simp
  | cons hd rest ih =>
    obtain ⟨k, f⟩ := hd
    obtain ⟨hsw, hdr⟩ := hpfx (k, f) (List.mem_cons_self _ _)
    have hknotin : k ∉ acc.table.map Prod.fst := by
      rw [List.nodup_append] at hnd
      intro hmem
      exact hnd.2.2 hmem (List.mem_cons_self _ _)
    have hreg : FunctionTable.register acc (bindFunc i f) none =
        some ({ acc with table := acc.table ++ [(k, bindFunc i f)] }, bindFunc i f) := by
      simp only [FunctionTable.register, bindFunc, hsw, if_pos, hdr,
        dinsert_of_not_mem k _ acc.table hknotin]
    rw [List.foldlM_cons]
    simp only [hreg, Option.map_some', Option.bind_eq_bind, Option.some_bind]
    have ih2 := ih { acc with table := acc.table ++ [(k, bindFunc i f)] }
      (fun e he => hpfx e (List.mem_cons_of_mem _ he))
      (by
        simp only [List.map_append, List.map_cons, List.map_nil] at hnd ⊢
        simpa [List.append_assoc] using hnd)
    rw [ih2]
    simp [List.append_assoc]

/-- Running a register sequence preserves the prefix, accumulates the
resolved keys into the key set, and preserves key distinctness. -/
theorem registerSeq_keys {α : Type} (l : List (PyFunc α × Option String))
    (t t2 : FunctionTable α) (h : registerSeq t l = some t2) :
    t2.pfx = t.pfx ∧
    t2.keys.toFinset = t.keys.toFinset ∪
      (l.filterMap fun q => resolvedKey t.pfx q.1 q.2).toFinset ∧
    (t.keys.Nodup → t2.keys.Nodup) := by
  induction l generalizing t with
  | nil =>
    simp only [registerSeq] at h
    cases h
    simp
  | cons q rest ih =>
    simp only [registerSeq] at h
    cases hreg : t.register q.1 q.2 with
    | none => rw [hreg] at h; exact absurd h (by simp)
    | some p =>
      rw [hreg] at h
      obtain ⟨t3, r⟩ := p
      obtain ⟨-, k, hk, ht3⟩ := register_some hreg
      obtain ⟨hp3, hs3, hn3⟩ := ih t3 h
      have hpfx3 : t3.pfx = t.pfx := by rw [ht3]
      refine ⟨hp3.trans hpfx3, ?_, ?_⟩
      · rw [hs3, hpfx3, List.filterMap_cons, hk]
        have : t3.keys.toFinset = insert k t.keys.toFinset := by
          rw [ht3]
          exact keys_dinsert_toFinset k q.1 t.table
        rw [this, List.toFinset_cons, Finset.insert_union, Finset.union_insert]
      · intro hnd
        apply hn3
        rw [ht3]
        exact keys_dinsert_nodup k q.1 t.table hnd

/-- Lookup after a register sequence: the last registration in the
sequence resolving to the key wins, and keys the sequence never resolves
to keep their previous value. -/
theorem registerSeq_getitem {α : Type} (l : List (PyFunc α × Option String))
    (t t2 : FunctionTable α) (k : String) (h : registerSeq t l = some t2) :
    t2.getitem k = match lastVal t.pfx k l with
      | some v => some v
      | none => t.getitem k := by
  induction l generalizing t with
  | nil =>
    simp only [registerSeq] at h
    cases h
    simp [lastVal]
  | cons q rest ih =>
    simp only [registerSeq] at h
    cases hreg : t.register q.1 q.2 with
    | none => rw [hreg] at h; exact absurd h (by simp)
    | some p =>
      rw [hreg] at h
      obtain ⟨t3, r⟩ := p
      obtain ⟨-, k0, hk0, ht3⟩ := register_some hreg
      have hpfx3 : t3.pfx = t.pfx := by rw [ht3]
      have hrec := ih t3 h
      rw [hpfx3] at hrec
      have hget3 : t3.getitem k = if k0 = k then some q.1 else t.getitem k := by
        rw [ht3]
        by_cases hkk : k0 = k
        · subst hkk
          simp [FunctionTable.getitem, dlookup_dinsert_self]
        · have := dlookup_dinsert_ne k0 k q.1 t.table (fun hh => hkk hh.symm)
          simp [FunctionTable.getitem, hkk, this]
      rw [hrec]
      show (match lastVal t.pfx k rest with
            | some v => some v
            | none => t3.getitem k) = _
      show _ = (match (match lastVal t.pfx k rest with
            | some v => some v
            | none => if resolvedKey t.pfx q.1 q.2 = some k then some q.1 else none) with
            | some v => some v
            | none => t.getitem k)
      cases lastVal t.pfx k rest with
      | some v => rfl
      | none =>
        rw [hget3, hk0]
        by_cases hkk : k0 = k
        · simp [hkk]
        · simp [hkk, Option.some.injEq]

/-- C2: with the name argument omitted, register derives the key from the
declared name of the callable: when the declared name starts with the
prefix, registration succeeds and the key is the declared name with the
prefix removed; when it does not, the assert fails (the
RegistrationPrecondition contract violation, modelled by none) before any
table assignment happens, so no updated registry results. -/
theorem C2_register_derived_name {α : Type} (t : FunctionTable α) (f : PyFunc α) :
    (pyStartsWith f.name t.pfx = true →
      t.register f none =
        some ({ t with table := dinsert (pyDrop f.name (pyLen t.pfx)) f t.table }, f)) ∧
    (pyStartsWith f.name t.pfx = false → t.register f none = none) := by
  constructor
  · intro h
    simp [FunctionTable.register, h]
  · intro h
    simp [FunctionTable.register, h]

/-- Witness for C2 at the spec example: a callable named foo_add into a
registry with prefix foo_ yields key add, and a callable named add into
the same registry fails the precondition. -/
theorem C2_register_derived_name_witness :
    pyStartsWith "foo_add" "foo_" = true ∧
    (FunctionTable.register (FunctionTable.empty "foo_") ⟨"foo_add", ()⟩ none =
      some ({ pfx := "foo_", table := [("add", ⟨"foo_add", ()⟩)] }, ⟨"foo_add", ()⟩)) ∧
    pyStartsWith "add" "foo_" = false ∧
    (FunctionTable.register (FunctionTable.empty "foo_") ⟨"add", ()⟩ none = none) := by
  refine ⟨by decide, ?_, by decide, ?_⟩
  · exact ((C2_register_derived_name (FunctionTable.empty "foo_") ⟨"foo_add", ()⟩).1
      (by decide)).trans (by rfl)
  · exact (C2_register_derived_name (FunctionTable.empty "foo_") ⟨"add", ()⟩).2 (by decide)

/-- C5: plain lookup returns the registered callable when the key is
present and fails with KeyError (none) when absent; the default-valued
get returns the registered callable when present and the default when
absent, and is total. -/
theorem C5_lookup_and_get {α : Type} (t : FunctionTable α) (k : String)
    (d : PyFunc α) :
    (t.contains k = true → ∃ f, t.getitem k = some f ∧ t.get k d = f) ∧
    (t.contains k = false → t.getitem k = none ∧ t.get k d = d) := by
  constructor
  · intro h
    cases hg : t.getitem k with
    | none => rw [FunctionTable.contains, hg] at h; simp at h
    | some f => exact ⟨f, rfl, by simp [FunctionTable.get, hg]⟩
  · intro h
    cases hg : t.getitem k with
    | some f => rw [FunctionTable.contains, hg] at h; simp at h
    | none => exact ⟨rfl, by simp [FunctionTable.get, hg]⟩

/-- Witness for C5 on a one-entry table: present key add, absent key
missing. -/
theorem C5_lookup_and_get_witness :
    (FunctionTable.contains { pfx := "", table := [("add", (⟨"add", ()⟩ : PyFunc Unit))] } "add" = true ∧
      ∃ f, FunctionTable.getitem { pfx := "", table := [("add", (⟨"add", ()⟩ : PyFunc Unit))] } "add" = some f ∧
        FunctionTable.get { pfx := "", table := [("add", (⟨"add", ()⟩ : PyFunc Unit))] } "add" ⟨"d", ()⟩ = f) ∧
    (FunctionTable.contains { pfx := "", table := [("add", (⟨"add", ()⟩ : PyFunc Unit))] } "missing" = false ∧
      FunctionTable.getitem { pfx := "", table := [("add", (⟨"add", ()⟩ : PyFunc Unit))] } "missing" = none ∧
      FunctionTable.get { pfx := "", table := [("add", (⟨"add", ()⟩ : PyFunc Unit))] } "missing" ⟨"d", ()⟩ = ⟨"d", ()⟩) := by
  constructor
  · exact ⟨by rfl,
      (C5_lookup_and_get { pfx := "", table := [("add", ⟨"add", ()⟩)] } "add" ⟨"d", ()⟩).1 (by rfl)⟩
  · refine ⟨by rfl, ?_⟩
    exact (C5_lookup_and_get { pfx := "", table := [("add", ⟨"add", ()⟩)] } "missing" ⟨"d", ()⟩).2 (by rfl)

/-- C6: duplicate resolved keys overwrite, the later registration
winning, without error; after any successful register sequence from an
empty table, the size is the number of distinct resolved keys.  The
lookup of every key is the callable of the last registration resolving to
it, success of a register call depends only on the key resolving (never
on the key being already present), and the size counts distinct resolved
keys once. -/
theorem C6_last_wins_and_size {α : Type} (p : String)
    (l : List (PyFunc α × Option String)) (t : FunctionTable α)
    (h : registerSeq (FunctionTable.empty p) l = some t) :
    t.size = (l.filterMap fun q => resolvedKey p q.1 q.2).dedup.length ∧
    (∀ k, t.getitem k = lastVal p k l) ∧
    (∀ (t0 : FunctionTable α) (g : PyFunc α) (m : Option String) (k : String),
      resolvedKey t0.pfx g m = some k → (t0.register g m).isSome = true) := by
  refine ⟨?_, ?_, ?_⟩
  · obtain ⟨-, hset, hnd⟩ := registerSeq_keys l _ t h
    have hnd2 : t.keys.Nodup := hnd (by simp [FunctionTable.keys, FunctionTable.empty])
    have hempty : (FunctionTable.empty p : FunctionTable α).keys.toFinset = ∅ := by
      simp [FunctionTable.keys, FunctionTable.empty]
    rw [hempty, Finset.empty_union] at hset
    simp only [FunctionTable.empty] at hset
    have hsz : t.size = t.keys.length := by
      simp [FunctionTable.size, FunctionTable.keys]
    rw [hsz, ← List.toFinset_card_of_nodup hnd2, hset, List.card_toFinset]
  · intro k
    have h2 := registerSeq_getitem l _ t k h
    simp only [FunctionTable.empty, FunctionTable.getitem, dlookup] at h2
    show dlookup k t.table = lastVal p k l
    rw [h2]
    cases lastVal p k l with
    | some v => rfl
    | none => rfl
  · intro t0 g m k hk
    rw [register_eq, hk]
    rfl

/-- Witness for C6: three registrations, the third overwriting the key
add through an explicit name; the size is 2 and lookup of add returns the
latest callable. -/
theorem C6_last_wins_and_size_witness :
    registerSeq (FunctionTable.empty "")
        [((⟨"add", ()⟩ : PyFunc Unit), none), (⟨"mult", ()⟩, none), (⟨"second", ()⟩, some "add")]
      = some { pfx := "", table := [("add", ⟨"second", ()⟩), ("mult", ⟨"mult", ()⟩)] } ∧
    (FunctionTable.size { pfx := "", table := [("add", (⟨"second", ()⟩ : PyFunc Unit)), ("mult", ⟨"mult", ()⟩)] }
        = ([((⟨"add", ()⟩ : PyFunc Unit), (none : Option String)), (⟨"mult", ()⟩, none), (⟨"second", ()⟩, some "add")].filterMap
            fun q => resolvedKey "" q.1 q.2).dedup.length ∧
      (∀ k, FunctionTable.getitem { pfx := "", table := [("add", (⟨"second", ()⟩ : PyFunc Unit)), ("mult", ⟨"mult", ()⟩)] } k
          = lastVal "" k [((⟨"add", ()⟩ : PyFunc Unit), none), (⟨"mult", ()⟩, none), (⟨"second", ()⟩, some "add")]) ∧
      (∀ (t0 : FunctionTable Unit) (g : PyFunc Unit) (m : Option String) (k : String),
        resolvedKey t0.pfx g m = some k → (t0.register g m).isSome = true)) := by
  refine ⟨by rfl, ?_⟩
  exact C6_last_wins_and_size ""
    [(⟨"add", ()⟩, none), (⟨"mult", ()⟩, none), (⟨"second", ()⟩, some "add")]
    { pfx := "", table := [("add", ⟨"second", ()⟩), ("mult", ⟨"mult", ()⟩)] } (by rfl)

/-- C7: register with an explicit name always succeeds, ignores the
prefix precondition, and stores the callable under exactly the supplied
name with no stripping. -/
theorem C7_explicit_name {α : Type} (t : FunctionTable α) (f : PyFunc α)
    (n : String) :
    t.register f (some n) = some ({ t with table := dinsert n f t.table }, f) ∧
    ∃ t2, t.register f (some n) = some (t2, f) ∧ t2.getitem n = some f ∧
      t2.pfx = t.pfx := by
  refine ⟨by simp [FunctionTable.register], ?_⟩
  refine ⟨{ t with table := dinsert n f t.table }, by simp [FunctionTable.register], ?_, rfl⟩
  simp [FunctionTable.getitem, dlookup_dinsert_self]

/-- C8: a successful registration stores the callable object itself under
the resolved key, lookup returns that identical object, and every other
key is untouched. -/
theorem C8_identity_preserving {α : Type} (t t2 : FunctionTable α)
    (f r : PyFunc α) (n : Option String) (h : t.register f n = some (t2, r)) :
    ∃ k, resolvedKey t.pfx f n = some k ∧ t2.getitem k = some f ∧
      ∀ k2, k2 ≠ k → t2.getitem k2 = t.getitem k2 := by
  obtain ⟨-, k, hk, ht2⟩ := register_some h
  refine ⟨k, hk, ?_, ?_⟩
  · rw [ht2]
    simp [FunctionTable.getitem, dlookup_dinsert_self]
  · intro k2 hne
    rw [ht2]
    simp only [FunctionTable.getitem]
    exact dlookup_dinsert_ne k k2 f t.table hne

/-- Witness for C8 at a concrete registration. -/
theorem C8_identity_preserving_witness :
    (FunctionTable.register (FunctionTable.empty "") (⟨"add", ()⟩ : PyFunc Unit) none
      = some ({ pfx := "", table := [("add", ⟨"add", ()⟩)] }, ⟨"add", ()⟩)) ∧
    ∃ k, resolvedKey "" (⟨"add", ()⟩ : PyFunc Unit) none = some k ∧
      FunctionTable.getitem { pfx := "", table := [("add", ⟨"add", ()⟩)] } k = some ⟨"add", ()⟩ ∧
      ∀ k2, k2 ≠ k →
        FunctionTable.getitem { pfx := "", table := [("add", ⟨"add", ()⟩)] } k2 =
          FunctionTable.getitem (FunctionTable.empty "") k2 := by
  refine ⟨by rfl, ?_⟩
  exact C8_identity_preserving (FunctionTable.empty "")
    { pfx := "", table := [("add", ⟨"add", ()⟩)] } ⟨"add", ()⟩ ⟨"add", ()⟩ none (by rfl)

/-- C9: register hands back the registered callable itself, so decorator
use leaves the callable unchanged. -/
theorem C9_register_returns_callable {α : Type} (t t2 : FunctionTable α)
    (f r : PyFunc α) (n : Option String) (h : t.register f n = some (t2, r)) :
    r = f :=
  (register_some h).1

/-- Witness for C9 at a concrete registration. -/
theorem C9_register_returns_callable_witness :
    (FunctionTable.register (FunctionTable.empty "") (⟨"mult", ()⟩ : PyFunc Unit) none
      = some ({ pfx := "", table := [("mult", ⟨"mult", ()⟩)] }, ⟨"mult", ()⟩)) ∧
    ((⟨"mult", ()⟩ : PyFunc Unit) = ⟨"mult", ()⟩) := by
  refine ⟨by rfl, ?_⟩
  exact C9_register_returns_callable (FunctionTable.empty "")
    { pfx := "", table := [("mult", ⟨"mult", ()⟩)] } ⟨"mult", ()⟩ ⟨"mult", ()⟩ none (by rfl)

/-- One instance access preserves the provider invariant, and either
leaves the run record alone (cache hit) or prepends the accessed
instance (first materialization). -/
theorem accessInstance_inv {ι α : Type} [DecidableEq ι] {st st2 : PropState ι α}
    {i : ι} {bt : FunctionTable α} (hinv : PropInv st)
    (h : accessInstance st i = some (bt, st2)) :
    PropInv st2 ∧ (st2.runs = st.runs ∨ st2.runs = i :: st.runs) := by
  unfold accessInstance at h
  cases hc : dlookup i st.cache with
  | some bt0 =>
    rw [hc] at h
    simp only [Option.some.injEq, Prod.mk.injEq] at h
    obtain ⟨-, h2⟩ := h
    subst h2
    exact ⟨hinv, Or.inl rfl⟩
  | none =>
    rw [hc] at h
    cases hb : FunctionTableProperty.bind st.prop i with
    | none => rw [hb] at h; simp at h
    | some bt0 =>
      rw [hb] at h
      simp only [Option.some.injEq, Prod.mk.injEq] at h
      obtain ⟨-, h2⟩ := h
      subst h2
      have hni : i ∉ st.runs := by
        intro hmem
        have hs := (hinv.2 i).mpr hmem
        rw [hc] at hs
        simp at hs
      refine ⟨⟨List.nodup_cons.mpr ⟨hni, hinv.1⟩, ?_⟩, Or.inr rfl⟩
      intro j
      by_cases hj : j = i
      · subst hj
        simp [dlookup_dinsert_self]
      · rw [dlookup_dinsert_ne i j bt0 st.cache hj, List.mem_cons]
        constructor
        · intro hh
          exact Or.inr ((hinv.2 j).mp hh)
        · rintro (hh | hh)
          · exact absurd hh hj
          · exact (hinv.2 j).mpr hh

/-- After a successful access the bound table is cached, so an immediate
second access through the same instance returns the same table and the
same state, without any further bind computation. -/
theorem accessInstance_cached {ι α : Type} [DecidableEq ι]
    {st st2 : PropState ι α} {i : ι} {bt : FunctionTable α}
    (h : accessInstance st i = some (bt, st2)) :
    accessInstance st2 i = some (bt, st2) := by
  unfold accessInstance at h ⊢
  cases hc : dlookup i st.cache with
  | some bt0 =>
    rw [hc] at h
    simp only [Option.some.injEq, Prod.mk.injEq] at h
    obtain ⟨h1, h2⟩ := h
    subst h1
    subst h2
    rw [hc]
  | none =>
    rw [hc] at h
    cases hb : FunctionTableProperty.bind st.prop i with
    | none => rw [hb] at h; simp at h
    | some bt0 =>
      rw [hb] at h
      simp only [Option.some.injEq, Prod.mk.injEq] at h
      obtain ⟨h1, h2⟩ := h
      subst h1
      subst h2
      simp [dlookup_dinsert_self]

/-- Running a sequence of accesses from a state satisfying the invariant
keeps the invariant, and every recorded bind run either predates the
sequence or is one of the accessed instances. -/
theorem runAccesses_inv {ι α : Type} [DecidableEq ι] (l : List ι)
    (st0 st : PropState ι α) (hinv : PropInv st0)
    (h : runAccesses st0 l = some st) :
    PropInv st ∧ ∀ j, j ∈ st.runs → j ∈ st0.runs ∨ j ∈ l := by
  induction l generalizing st0 with
  | nil =>
    simp only [runAccesses] at h
    cases h
    exact ⟨hinv, fun j hj => Or.inl hj⟩
  | cons i rest ih =>
    simp only [runAccesses] at h
    cases ha : accessInstance st0 i with
    | none => rw [ha] at h; exact absurd h (by simp)
    | some pr =>
      rw [ha] at h
      obtain ⟨bt, st1⟩ := pr
      obtain ⟨hinv1, hruns⟩ := accessInstance_inv hinv ha
      obtain ⟨hinv2, hmem⟩ := ih st1 hinv1 h
      refine ⟨hinv2, fun j hj => ?_⟩
      rcases hmem j hj with hj1 | hj1
      · rcases hruns with hr | hr
        · rw [hr] at hj1
          exact Or.inl hj1
        · rw [hr] at hj1
          rcases List.mem_cons.mp hj1 with hh | hh
          · exact Or.inr (by simp [hh])
          · exact Or.inl hh
      · exact Or.inr (List.mem_cons_of_mem _ hj1)

/-- C1 (amended): for an unbound table each of whose entries is stored
under the key derived from the declared name of its callable (the
declared name starts with the prefix and the key is the declared name
with the prefix stripped) and whose keys are distinct, the bound table
materialized for an instance has exactly the same keys, and its value at
each key is the unbound callable partially applied to that instance.
Entries registered under an explicit name differing from the derived key
are not covered: the bind computation re-derives the key from the
declared name, as the counterexample shows. -/
theorem C1_bound_view {ι α : Type} [DecidableEq ι]
    (t : FunctionTable (ι → α)) (i : ι)
    (hpfx : ∀ e ∈ t.table, pyStartsWith e.2.name t.pfx = true ∧
      pyDrop e.2.name (pyLen t.pfx) = e.1)
    (hnd : (t.table.map Prod.fst).Nodup) :
    ∃ bt, FunctionTableProperty.bind t i = some bt ∧
      accessInstance { prop := t, cache := [], runs := [] } i
        = some (bt, { prop := t, cache := [(i, bt)], runs := [i] }) ∧
      bt.keys = t.keys ∧
      (∀ k f, t.getitem k = some f → bt.getitem k = some (bindFunc i f)) ∧
      (∀ k g, bt.getitem k = some g →
        ∃ f, t.getitem k = some f ∧ g = bindFunc i f) := by
  have hfold := bind_foldl_aux i t.table (FunctionTable.empty t.pfx)
    (by simpa [FunctionTable.empty] using hpfx)
    (by simpa [FunctionTable.empty] using hnd)
  have hbind : FunctionTableProperty.bind t i
      = some { pfx := t.pfx, table := t.table.map fun kv => (kv.1, bindFunc i kv.2) } :=
    hfold.trans (by simp [FunctionTable.empty])
  refine ⟨{ pfx := t.pfx, table := t.table.map fun kv => (kv.1, bindFunc i kv.2) },
    hbind, ?_, ?_, ?_, ?_⟩
  · simp [accessInstance, dlookup, dinsert, hbind]
  · simp [FunctionTable.keys]
  · intro k f hf
    simp only [FunctionTable.getitem] at hf ⊢
    rw [dlookup_map_entry (bindFunc i) k t.table, hf]
    rfl
  · intro k g hg
    simp only [FunctionTable.getitem] at hg ⊢
    rw [dlookup_map_entry (bindFunc i) k t.table] at hg
    cases hf : dlookup k t.table with
    | none => rw [hf] at hg; simp at hg
    | some f =>
      rw [hf] at hg
      simp only [Option.map_some', Option.some.injEq] at hg
      exact ⟨f, rfl, hg.symm⟩

/-- Counterexample to C1 as stated: an entry registered under the
explicit name pow whose callable has declared name lambda produces a
bound table keyed by the declared name, not by pow, so the key sets of
the unbound and the bound table differ. -/
theorem C1_bound_view_counterexample :
    ((FunctionTable.register (FunctionTable.empty "") cexF (some "pow")).map Prod.fst
      = some cexProvider) ∧
    cexProvider.keys = ["pow"] ∧
    (FunctionTableProperty.bind cexProvider ()).map FunctionTable.keys
      = some ["<lambda>"] ∧
    (accessInstance { prop := cexProvider, cache := [], runs := [] } ()).map
        (fun p => p.1.keys)
      = some ["<lambda>"] ∧
    ("<lambda>" : String) ≠ "pow" := by
  refine ⟨rfl, rfl, rfl, rfl, by decide⟩

/-- Witness for C1 on the spec example: an instance with x = 42 and the
derived-name entry add(self, y) = self.x + y; the bound entry applied to
3 yields 45. -/
theorem C1_bound_view_witness :
    (∀ e ∈ exTable.table, pyStartsWith e.2.name exTable.pfx = true ∧
      pyDrop e.2.name (pyLen exTable.pfx) = e.1) ∧
    (exTable.table.map Prod.fst).Nodup ∧
    (∃ bt, FunctionTableProperty.bind exTable ⟨42⟩ = some bt ∧
      accessInstance { prop := exTable, cache := [], runs := [] } ⟨42⟩
        = some (bt, { prop := exTable, cache := [(⟨42⟩, bt)], runs := [⟨42⟩] }) ∧
      bt.keys = exTable.keys ∧
      (∀ k f, exTable.getitem k = some f →
        bt.getitem k = some (bindFunc ⟨42⟩ f)) ∧
      (∀ k g, bt.getitem k = some g →
        ∃ f, exTable.getitem k = some f ∧ g = bindFunc ⟨42⟩ f)) ∧
    (bindFunc (⟨42⟩ : CInst) addUnbound).fn 3 = 45 := by
  have hp : ∀ e ∈ exTable.table, pyStartsWith e.2.name exTable.pfx = true ∧
      pyDrop e.2.name (pyLen exTable.pfx) = e.1 := by
    intro e he
    simp only [exTable, List.mem_singleton] at he
    subst he
    exact ⟨by decide, by decide⟩
  have hn : (exTable.table.map Prod.fst).Nodup := by
    simp [exTable]
  exact ⟨hp, hn, C1_bound_view exTable ⟨42⟩ hp hn, by decide⟩

/-- C3: the bound-table computation is lazy and memoized per instance:
starting from a fresh provider state (empty cache, no recorded run),
after any successful access sequence the bind computation has run at
most once per instance, only instances that were actually accessed have
a recorded run, an access that succeeded is answered from the cache by
any immediately repeated access through the same instance (same table,
same state, no new run), and after a successful access the instance has
exactly one recorded run. -/
theorem C3_lazy_cached {ι α : Type} [DecidableEq ι]
    (t : FunctionTable (ι → α)) (l : List ι) (st : PropState ι α)
    (h : runAccesses { prop := t, cache := [], runs := [] } l = some st) :
    (∀ j, st.runs.count j ≤ 1) ∧
    (∀ j, j ∈ st.runs → j ∈ l) ∧
    (∀ i bt st2, accessInstance st i = some (bt, st2) →
      accessInstance st2 i = some (bt, st2)) ∧
    (∀ i bt st2, accessInstance st i = some (bt, st2) →
      st2.runs.count i = 1) := by
  have hinv0 : PropInv { prop := t, cache := [], runs := [] } := by
    refine ⟨List.nodup_nil, ?_⟩
    intro j
    simp [dlookup]
  obtain ⟨hinv, hmem⟩ := runAccesses_inv l _ st hinv0 h
  refine ⟨?_, ?_, ?_, ?_⟩
  · intro j
    exact List.nodup_iff_count_le_one.mp hinv.1 j
  · intro j hj
    rcases hmem j hj with hh | hh
    · simp at hh
    · exact hh
  · intro i bt st2 ha
    exact accessInstance_cached ha
  · intro i bt st2 ha
    obtain ⟨hinv2, -⟩ := accessInstance_inv hinv ha
    have hi : i ∈ st2.runs := by
      unfold accessInstance at ha
      cases hc : dlookup i st.cache with
      | some bt0 =>
        rw [hc] at ha
        simp only [Option.some.injEq, Prod.mk.injEq] at ha
        obtain ⟨-, h2⟩ := ha
        subst h2
        exact (hinv.2 i).mp (by rw [hc]; rfl)
      | none =>
        rw [hc] at ha
        cases hb : FunctionTableProperty.bind st.prop i with
        | none => rw [hb] at ha; simp at ha
        | some bt0 =>
          rw [hb] at ha
          simp only [Option.some.injEq, Prod.mk.injEq] at ha
          obtain ⟨-, h2⟩ := ha
          subst h2
          exact List.mem_cons_self _ _
    exact List.count_eq_one_of_mem hinv2.1 hi

/-- Witness for C3: accessing instance 5 twice from a fresh provider
records exactly one run. -/
theorem C3_lazy_cached_witness :
    (runAccesses c3Start [5, 5] = some c3End) ∧
    ((∀ j, c3End.runs.count j ≤ 1) ∧
     (∀ j, j ∈ c3End.runs → j ∈ [5, 5]) ∧
     (∀ i bt st2, accessInstance c3End i = some (bt, st2) →
       accessInstance st2 i = some (bt, st2)) ∧
     (∀ i bt st2, accessInstance c3End i = some (bt, st2) →
       st2.runs.count i = 1)) := by
  refine ⟨by rfl, ?_⟩
  exact C3_lazy_cached (FunctionTable.empty "") [5, 5] c3End (by rfl)

/-- C4: attribute access through the owning class returns the internal
unbound registry itself, on which lookup of a registered key yields the
raw unbound callable exactly as registered. -/
theorem C4_class_access {ι α : Type} (st st2 : PropState ι α)
    (f : PyFunc (ι → α)) (n : Option String) (k : String)
    (hreg : registerProp st f n = some st2)
    (hk : resolvedKey st.prop.pfx f n = some k) :
    accessClass st2 = st2.prop ∧ (accessClass st2).getitem k = some f := by
  refine ⟨rfl, ?_⟩
  unfold registerProp at hreg
  cases hr : st.prop.register f n with
  | none => rw [hr] at hreg; simp at hreg
  | some p =>
    rw [hr] at hreg
    simp only [Option.map_some', Option.some.injEq] at hreg
    obtain ⟨t2, r⟩ := p
    obtain ⟨-, k2, hk2, ht2⟩ := register_some hr
    rw [hk] at hk2
    injection hk2 with hkk
    subst hkk
    subst hreg
    show t2.getitem k = some f
    rw [ht2]
    simp [FunctionTable.getitem, dlookup_dinsert_self]

/-- Witness for C4: registering add(self, y) = self.x + y and accessing
through the class yields the raw unbound callable, which applied to an
instance with x = 42 and to 3 gives 45. -/
theorem C4_class_access_witness :
    (registerProp { prop := (FunctionTable.empty "" : FunctionTable (CInst → Int → Int)),
                    cache := [], runs := [] } addUnbound none
      = some { prop := { pfx := "", table := [("add", addUnbound)] },
               cache := [], runs := [] }) ∧
    (resolvedKey "" addUnbound none = some "add") ∧
    (accessClass ({ prop := { pfx := "", table := [("add", addUnbound)] },
                    cache := [], runs := [] } : PropState CInst (Int → Int))
      = { pfx := "", table := [("add", addUnbound)] } ∧
     (accessClass ({ prop := { pfx := "", table := [("add", addUnbound)] },
                     cache := [], runs := [] } : PropState CInst (Int → Int))).getitem "add"
      = some addUnbound) ∧
    addUnbound.fn ⟨42⟩ 3 = 45 := by
  refine ⟨by rfl, by rfl, ?_, by decide⟩
  exact C4_class_access
    { prop := FunctionTable.empty "", cache := [], runs := [] }
    { prop := { pfx := "", table := [("add", addUnbound)] }, cache := [], runs := [] }
    addUnbound none "add" (by rfl) (by rfl)

/-- C10: the bound table of an instance is backed by its own fresh dict:
registering into the provider leaves every cached bound table untouched,
and registering into the bound table of one instance leaves the unbound
template of the provider and the bound tables of all other instances
untouched. -/
theorem C10_frame_separation {ι α : Type} [DecidableEq ι] (st : PropState ι α) :
    (∀ f n st2, registerProp st f n = some st2 → st2.cache = st.cache) ∧
    (∀ i f n st2, registerBound st i f n = some st2 →
      st2.prop = st.prop ∧
      ∀ j, j ≠ i → dlookup j st2.cache = dlookup j st.cache) := by
  constructor
  · intro f n st2 h
    unfold registerProp at h
    cases hr : st.prop.register f n with
    | none => rw [hr] at h; simp at h
    | some p =>
      rw [hr] at h
      simp only [Option.map_some', Option.some.injEq] at h
      subst h
      rfl
  · intro i f n st2 h
    unfold registerBound at h
    cases hc : dlookup i st.cache with
    | none => rw [hc] at h; simp at h
    | some bt =>
      rw [hc] at h
      have h2 : (bt.register f n).map
          (fun p => { st with cache := dinsert i p.1 st.cache }) = some st2 := h
      cases hr : bt.register f n with
      | none => rw [hr] at h2; simp at h2
      | some p =>
        rw [hr] at h2
        simp only [Option.map_some', Option.some.injEq] at h2
        subst h2
        exact ⟨rfl, fun j hj => dlookup_dinsert_ne i j p.1 st.cache hj⟩

/-- Witness for C10: one materialized bound table for instance 0;
registering f into the provider leaves the cache untouched, and
registering g into the bound table of instance 0 leaves the provider and
every other cache slot untouched. -/
theorem C10_frame_separation_witness :
    (registerProp c10St ⟨"f", fun _ => 0⟩ none = some c10St2) ∧
    c10St2.cache = c10St.cache ∧
    (registerBound c10St 0 ⟨"g", 1⟩ none = some c10St3) ∧
    (c10St3.prop = c10St.prop ∧
      ∀ j, j ≠ 0 → dlookup j c10St3.cache = dlookup j c10St.cache) := by
  refine ⟨by rfl, ?_, by rfl, ?_⟩
  · exact (C10_frame_separation c10St).1 ⟨"f", fun _ => 0⟩ none c10St2 (by rfl)
  · exact (C10_frame_separation c10St).2 0 ⟨"g", 1⟩ none c10St3 (by rfl)

end Functable
